import Mathlib

/-!
Verification of the lead-generator repository against its natural-language
specification.

The repository splits into two parts.

Frontend (present in the source tree): the Next.js components.  The relevant
code is embedded directly:
* `sortedData` in `frontend/components/ui/table.tsx` (the generic `Table`),
* `handleScrapeUsers` and the quick-stats block of `ScrapingDashboard`.

Backend (the FastAPI acquisition pipeline): only its README-level description
and the specification are available in this tree, so the pipeline components
(StrategyOrchestrator, Deduplicator/Store, AcquisitionStrategy, ProxyPool,
RateLimiter) are modelled from the spec, each marked `Modelled from the spec:`
in its doc comment.

Conventions: machine integers are `Nat`/`Int` (no overflow is relevant at the
sizes involved); JavaScript numbers that take part in exact division are
modelled as `ℚ`; fallible operations return `Option`/`Except`.
-/

namespace LeadGen

/-! ## Frontend: `Table` sorting (`frontend/components/ui/table.tsx`) -/

/-- Sort direction of the `Table` component (`'asc' | 'desc'`). -/
inductive SortDirection
  | asc
  | desc
deriving DecidableEq

/-- The comparator passed to `Array.prototype.sort` in `sortedData`:
`if (aVal < bVal) return dir === 'asc' ? -1 : 1; if (aVal > bVal) return
dir === 'asc' ? 1 : -1; return 0`, with the selected column's value given by
`v`.  Column values are embedded as `ℤ` (a linearly ordered value type). -/
def jsComparator {Row : Type} (v : Row → ℤ) (dir : SortDirection) (a b : Row) : ℤ :=
  if v a < v b then (match dir with | .asc => -1 | .desc => 1)
  else if v b < v a then (match dir with | .asc => 1 | .desc => -1)
  else 0

/-- The order relation induced by the JS comparator: `a` may precede `b`
exactly when the comparator does not require the pair to swap. -/
def jsSortLe {Row : Type} (v : Row → ℤ) (dir : SortDirection) (a b : Row) : Bool :=
  decide (jsComparator v dir a b ≤ 0)

/-- Intended row order of a sort column: ascending or descending in the
column's values. -/
def colOrdered {Row : Type} (v : Row → ℤ) (dir : SortDirection) (a b : Row) : Prop :=
  match dir with
  | .asc => v a ≤ v b
  | .desc => v b ≤ v a

/-- The `sortedData` memo of the `Table` component:

`if (!currentSortKey || onSort) return data; return [...data].sort(cmp)`.

The first component of the result is the list of rows the table renders; the
second is the caller's `data` array as left after the call (the source sorts a
spread copy `[...data]`, so `data` itself is returned unchanged).
`col` is `none` when no sort column is selected (`currentSortKey` is null),
`hasOnSort` is whether an `onSort` callback was supplied. -/
def sortedData {Row : Type} (data : List Row) (col : Option (Row → ℤ))
    (hasOnSort : Bool) (dir : SortDirection) : List Row × List Row :=
  match col, hasOnSort with
  | none, _ => (data, data)
  | some _, true => (data, data)
  | some v, false => (data.mergeSort (jsSortLe v dir), data)

/-! ## Frontend: `ScrapingDashboard` (`handleScrapeUsers`, quick stats) -/

/-- White-space characters removed by JavaScript `String.prototype.trim`
(the ASCII ones that can occur in a text input). -/
def isJsSpace (c : Char) : Bool :=
  c = ' ' || c = '\t' || c = '\n' || c = '\r' || c = '\x0b' || c = '\x0c'

/-- JavaScript `String.prototype.trim` on a string viewed as its character
list: strip white space from both ends. -/
def jsTrim (s : List Char) : List Char :=
  ((s.dropWhile isJsSpace).reverse.dropWhile isJsSpace).reverse

/-- The request body `handleScrapeUsers` passes to
`scrapeUsersMutation.mutate`. -/
structure ScrapeRequest where
  niche : List Char
  min_follower_count : Int
  max_results : Int
deriving DecidableEq

/-- The `handleScrapeUsers` handler of `ScrapingDashboard`:
`if (!searchParams.niche.trim()) { toast.error(...); return }` and otherwise
one `mutate` call with the trimmed niche, `min_followers` and `max_results`.
`none` models the early return (no mutation invoked); `some r` models exactly
one invocation with body `r`. -/
def handleScrapeUsers (niche : List Char) (minFollowers maxResults : Int) :
    Option ScrapeRequest :=
  if jsTrim niche = [] then none
  else some ⟨jsTrim niche, minFollowers, maxResults⟩

/-- A user row as consumed by the dashboard's quick-stats block.
`follower_count` is `none` when the field is absent (`undefined` in JS,
mapped to `0` by `user.follower_count || 0`). -/
structure DashUser where
  username : String
  follower_count : Option Int
  is_verified : Bool
deriving DecidableEq

/-- The reduction `users.reduce((sum, user) => sum + (user.follower_count || 0), 0)`. -/
def followerSum (users : List DashUser) : Int :=
  users.foldl (fun s u => s + u.follower_count.getD 0) 0

/-- JavaScript `Math.round` on a (non-negative or arbitrary) rational:
round half toward positive infinity, `⌊q + 1/2⌋`. -/
def jsRound (q : ℚ) : ℤ :=
  ⌊q + 1 / 2⌋

/-- The three quick-stat values of `ScrapingDashboard`. -/
structure QuickStats where
  totalFollowers : Int
  avgFollowers : ℤ
  verifiedCount : Nat
deriving DecidableEq

/-- The quick-stats block of `ScrapingDashboard`.  In the source the whole
block sits inside `{users && users.length > 0 && (...)}`, so the statistics —
including the division by `users.length` in the average — are computed only
when the list is non-empty; `none` models the branch not rendering. -/
def quickStats (users : List DashUser) : Option QuickStats :=
  if users.length = 0 then none
  else some
    { totalFollowers := followerSum users
      avgFollowers := jsRound ((followerSum users : ℚ) / (users.length : ℚ))
      verifiedCount := (users.filter (fun u => u.is_verified)).length }

/-! ## Backend data model (spec §3) -/

/-- Modelled from the spec: the two acquisition strategy variants of §2
(the backend pipeline sources are not in this tree). -/
inductive SourceStrategy
  | managedService
  | browserAutomation
deriving DecidableEq

/-- Modelled from the spec: a `Candidate`, the raw acquisition output of §3 —
identity, display name, follower/following counts, verification and privacy
flags, profile-image reference, niche tag, acquisition timestamp, source
strategy.  Immutable once produced. -/
structure Candidate where
  identity : String
  displayName : String
  followerCount : Nat
  followingCount : Nat
  isVerified : Bool
  isPrivate : Bool
  profileImage : String
  niche : String
  acquiredAt : Nat
  source : SourceStrategy
deriving DecidableEq

/-- Modelled from the spec: a persisted `LeadRecord` of §3 — the candidate
fields plus a stable surrogate key and a `first_seen` timestamp. -/
structure LeadRecord where
  surrogateKey : Nat
  identity : String
  displayName : String
  followerCount : Nat
  followingCount : Nat
  isVerified : Bool
  isPrivate : Bool
  profileImage : String
  niche : String
  firstSeen : Nat
  source : SourceStrategy
deriving DecidableEq

/-- Modelled from the spec: the Deduplicator/Store state of §4.6 — the
persisted records plus the next fresh surrogate key. -/
structure Store where
  records : List LeadRecord
  nextKey : Nat
deriving DecidableEq

/-- The empty store. -/
def Store.empty : Store :=
  { records := [], nextKey := 0 }

/-- The identities currently present in the store, in record order. -/
def identities (s : Store) : List String :=
  s.records.map LeadRecord.identity

/-- Modelled from the spec: the result of `Upsert` (§4.6),
`inserted | updated-duplicate`. -/
inductive UpsertResult
  | inserted
  | updatedDuplicate
deriving DecidableEq

/-- Re-ingestion update applied to a stored record: when the identities
match, the mutable fields (follower count, verification, privacy) take the
candidate's values and every other field — in particular `first_seen` and
the surrogate key — is kept; other records are untouched. -/
def applyDup (c : Candidate) (r : LeadRecord) : LeadRecord :=
  if r.identity = c.identity then
    { r with followerCount := c.followerCount
             isVerified := c.isVerified
             isPrivate := c.isPrivate }
  else r

/-- Modelled from the spec: `Deduplicator/Store.Upsert(candidate)` of §4.6.
Uniqueness key is the identity.  If a record with the candidate's identity
exists, the mutable fields (follower count, verification, privacy) are
updated, the `first_seen` timestamp and the surrogate key are preserved, and
`updated-duplicate` is returned; otherwise a new record is appended with a
fresh surrogate key and `first_seen := now`, and `inserted` is returned.
(The spec's per-niche association bookkeeping has no claim over it and is not
modelled; the stored `niche` field keeps its first value.) -/
def upsert (now : Nat) (c : Candidate) (s : Store) : UpsertResult × Store :=
  if s.records.any (fun r => decide (r.identity = c.identity)) then
    (.updatedDuplicate, { s with records := s.records.map (applyDup c) })
  else
    (.inserted,
      { records := s.records ++
          [{ surrogateKey := s.nextKey
             identity := c.identity
             displayName := c.displayName
             followerCount := c.followerCount
             followingCount := c.followingCount
             isVerified := c.isVerified
             isPrivate := c.isPrivate
             profileImage := c.profileImage
             niche := c.niche
             firstSeen := now
             source := c.source }]
        nextKey := s.nextKey + 1 })

/-- Store states reachable from the empty store by `upsert` steps (the only
mutating operation the spec gives the store). -/
inductive Reachable : Store → Prop
  | empty : Reachable Store.empty
  | step (now : Nat) (c : Candidate) {s : Store} :
      Reachable s → Reachable (upsert now c s).2

/-- Modelled from the spec: an `AcquisitionJob` of §3 — niche, minFollowers,
targetCount, maxResults, the force-fallback-only flag, and the per-job filter
configuration of §4.1 step 2c (optionally drop private / unverifiable
accounts).  The deadline/budget field has no claim over it and is omitted. -/
structure AcquisitionJob where
  niche : String
  minFollowers : Nat
  targetCount : Nat
  maxResults : Nat
  forceFallbackOnly : Bool
  dropPrivate : Bool
  dropUnverified : Bool
deriving DecidableEq

/-! ## Backend: AcquisitionStrategy (spec §4.2) -/

/-- Modelled from the spec: the observable behaviour of one strategy for one
job — either a raw candidate stream it can yield from, or a recoverable
failure (rate-limited, transient network, soft block, treated uniformly), or
an unrecoverable failure (auth invalidated, strategy disabled). -/
inductive StrategyBehavior
  | yields (raw : List Candidate)
  | failRecoverable
  | failUnrecoverable

/-- The behaviours of the two strategy variants for one job. -/
structure StrategySetup where
  ms : StrategyBehavior
  ba : StrategyBehavior

/-- The behaviour of a given strategy variant under a setup. -/
def behaviorFor (setup : StrategySetup) : SourceStrategy → StrategyBehavior
  | .managedService => setup.ms
  | .browserAutomation => setup.ba

/-- Modelled from the spec: the emit loop inside `FetchCandidates` — results
are emitted one at a time from the platform's raw stream and the loop returns
cleanly as soon as the requested number has been emitted. -/
def fetchLoop : List Candidate → Nat → List Candidate
  | _, 0 => []
  | [], _ + 1 => []
  | c :: rest, n + 1 => c :: fetchLoop rest n

/-- Modelled from the spec: `FetchCandidates(niche, minFollowers, count,
deadline)` of §4.2, restricted to its emission bound — both variants stop
once the requested `count` is satisfied and never over-fetch beyond the
job-level `maxResults`. -/
def fetchCandidates (raw : List Candidate) (count : Nat) (maxResults : Nat) :
    List Candidate :=
  fetchLoop raw (min count maxResults)

/-- Modelled from the spec: the result filter of §4.1 step 2c — drop below
`minFollowers`, optionally drop private and unverifiable accounts per job
configuration. -/
def passesFilter (job : AcquisitionJob) (c : Candidate) : Bool :=
  decide (job.minFollowers ≤ c.followerCount) &&
    (!job.dropPrivate || !c.isPrivate) &&
    (!job.dropUnverified || c.isVerified)

/-- Upsert a batch of filtered candidates in order, counting how many were
newly inserted (not duplicates). -/
def upsertAll (now : Nat) (cs : List Candidate) (s : Store) : Nat × Store :=
  cs.foldl
    (fun acc c =>
      let step := upsert now c acc.2
      (acc.1 + (if step.1 = .inserted then 1 else 0), step.2))
    (0, s)

/-! ## Backend: StrategyOrchestrator (spec §4.1) -/

/-- Modelled from the spec: the orchestrator-visible outcome of one strategy
invocation — success with the number of candidates the strategy returned and
the number newly inserted, or one of the two failure classes. -/
inductive StrategyOutcome
  | ok (returned : Nat) (newlyInserted : Nat)
  | recoverable
  | unrecoverable
deriving DecidableEq

/-- Modelled from the spec: the terminal status of a run (§4.1 step 3).
`partialSuccess` embeds the spec's `partial` status (the bare word is not a
usable Lean name). -/
inductive RunStatus
  | success
  | partialSuccess
  | failed
deriving DecidableEq

/-- Modelled from the spec: the error taxonomy entry raised before any
strategy runs (§7).  `ConfigurationError` is a distinct class from the two
strategy-error classes (which appear as `StrategyOutcome`s inside a run, are
never surfaced as job errors, and are the only outcomes subject to
retry/fallback). -/
inductive RunError
  | configurationError
deriving DecidableEq

/-- State carried through the orchestrator's strategy loop. -/
structure LoopState where
  deficit : Nat
  insertedCount : Nat
  strategiesUsed : List SourceStrategy
  invocations : List (SourceStrategy × StrategyOutcome)
  store : Store

/-- Modelled from the spec: one iteration of the orchestrator loop (§4.1
step 2).  If the deficit is already met the strategy is not invoked;
otherwise it is invoked with the remaining deficit, successful results are
filtered and upserted and the deficit is reduced by the newly inserted count;
failures are recorded and the loop continues. -/
def runStrategy (job : AcquisitionJob) (now : Nat) (strat : SourceStrategy)
    (beh : StrategyBehavior) (st : LoopState) : LoopState :=
  if st.deficit = 0 then st
  else
    match beh with
    | .failRecoverable =>
        { st with invocations := st.invocations ++ [(strat, .recoverable)] }
    | .failUnrecoverable =>
        { st with invocations := st.invocations ++ [(strat, .unrecoverable)] }
    | .yields raw =>
        let returned := fetchCandidates raw st.deficit job.maxResults
        let survivors := returned.filter (passesFilter job)
        let ins := upsertAll now survivors st.store
        { deficit := st.deficit - ins.1
          insertedCount := st.insertedCount + ins.1
          strategiesUsed := st.strategiesUsed ++ [strat]
          invocations := st.invocations ++ [(strat, .ok returned.length ins.1)]
          store := ins.2 }

/-- Every strategy invocation of the run failed unrecoverably. -/
def allUnrecoverable (invs : List (SourceStrategy × StrategyOutcome)) : Bool :=
  invs.all (fun p => decide (p.2 = StrategyOutcome.unrecoverable))

/-- Modelled from the spec: the terminal status rule of §4.1 step 3 —
`success` if the deficit is 0; `failed` only if zero candidates were inserted
and every strategy failed unrecoverably; `partial` for the remaining runs
(the spec names no other terminal state and makes `partial` the first-class
everything-else state of §7). -/
def statusOf (deficit insertedCount : Nat)
    (invs : List (SourceStrategy × StrategyOutcome)) : RunStatus :=
  if deficit = 0 then .success
  else if insertedCount = 0 && allUnrecoverable invs then .failed
  else .partialSuccess

/-- Modelled from the spec: the fixed strategy priority order of §4.1 —
ManagedService then BrowserAutomation, with ManagedService skipped when
force-fallback-only is set. -/
def strategyOrder (job : AcquisitionJob) : List SourceStrategy :=
  if job.forceFallbackOnly then [.browserAutomation]
  else [.managedService, .browserAutomation]

/-- Modelled from the spec: the `RunResult` summary of §4.1 step 4. -/
structure RunResult where
  status : RunStatus
  insertedCount : Nat
  finalDeficit : Nat
  strategiesUsed : List SourceStrategy
  invocations : List (SourceStrategy × StrategyOutcome)
  store : Store

/-- Result of submitting a job: the outcome (a `RunResult`, or the
configuration error raised before any strategy runs), together with the
strategy invocations that actually happened. -/
structure RunOutput where
  result : Except RunError RunResult
  invocations : List (SourceStrategy × StrategyOutcome)

/-- Modelled from the spec: `StrategyOrchestrator.Run(job)` of §4.1.
A job with `maxResults` smaller than `targetCount` is invalid: it fails fast
with a configuration error before any strategy is invoked.  Otherwise the
deficit starts at `targetCount` and the strategies run sequentially in
priority order. -/
def StrategyOrchestrator.Run (now : Nat) (job : AcquisitionJob)
    (setup : StrategySetup) (s0 : Store) : RunOutput :=
  if job.maxResults < job.targetCount then
    { result := .error .configurationError, invocations := [] }
  else
    let init : LoopState :=
      { deficit := job.targetCount, insertedCount := 0, strategiesUsed := []
        invocations := [], store := s0 }
    let final := (strategyOrder job).foldl
      (fun st strat => runStrategy job now strat (behaviorFor setup strat) st) init
    { result := .ok
        { status := statusOf final.deficit final.insertedCount final.invocations
          insertedCount := final.insertedCount
          finalDeficit := final.deficit
          strategiesUsed := final.strategiesUsed
          invocations := final.invocations
          store := final.store }
      invocations := final.invocations }

/-! ## Backend: ProxyPool (spec §4.4) -/

/-- Modelled from the spec: the outcome reported with `Release` (§4.4). -/
inductive ProxyOutcome
  | ok
  | blocked
  | failed
deriving DecidableEq

/-- Modelled from the spec: the ProxyPool state — the rotation list of
available proxy handles, the log of `blocked` reports (handle, time), the
proxies evicted from rotation, and the configured replacement source stream
(consumed front to back).  Proxy handles are embedded as `Nat`. -/
structure ProxyPoolState where
  available : List Nat
  blockedLog : List (Nat × Nat)
  evicted : List Nat
  replacements : List Nat
deriving DecidableEq

/-- Number of `blocked` reports for proxy `p` in the log that fall within the
rolling window of length `W` ending at time `t` (a report at time `u` is
within the window when `t < u + W`). -/
def recentBlocks (log : List (Nat × Nat)) (p t W : Nat) : Nat :=
  (log.filter (fun e => decide (e.1 = p) && decide (t < e.2 + W))).length

/-- Modelled from the spec: `ProxyPool.Lease` (§4.4) — returns the proxy at
the head of the rotation and rotates it to the back; on an empty pool it
fails fast (`none`) rather than blocking. -/
def poolLease (s : ProxyPoolState) : Option Nat × ProxyPoolState :=
  match s.available with
  | [] => (none, s)
  | p :: rest => (some p, { s with available := rest ++ [p] })

/-- Modelled from the spec: `ProxyPool.Release(handle, outcome)` (§4.4).
A `blocked` report is logged; a proxy marked blocked twice within the rolling
window `W` is removed from rotation and replaced from the replacement source
if one entry is available (otherwise the pool shrinks).  `ok`/`failed`
reports leave the rotation unchanged. -/
def poolRelease (W : Nat) (p : Nat) (outcome : ProxyOutcome) (t : Nat)
    (s : ProxyPoolState) : ProxyPoolState :=
  match outcome with
  | .blocked =>
      let log := s.blockedLog ++ [(p, t)]
      if 2 ≤ recentBlocks log p t W then
        match s.replacements with
        | [] =>
            { s with blockedLog := log
                     available := s.available.filter (fun q => decide (q ≠ p))
                     evicted := s.evicted ++ [p] }
        | q :: qs =>
            { s with blockedLog := log
                     available := s.available.filter (fun x => decide (x ≠ p)) ++ [q]
                     evicted := s.evicted ++ [p]
                     replacements := qs }
      else { s with blockedLog := log }
  | _ => s

/-- A command against the proxy pool: a lease, or a release report. -/
inductive PoolCmd
  | lease
  | release (p : Nat) (outcome : ProxyOutcome) (t : Nat)

/-- One pool command: the new state, and the leased proxy if any. -/
def poolStep (W : Nat) (s : ProxyPoolState) : PoolCmd → ProxyPoolState × Option Nat
  | .lease =>
      let l := poolLease s
      (l.2, l.1)
  | .release p outcome t => (poolRelease W p outcome t s, none)

/-- Run a command sequence against the pool, collecting the state and every
proxy returned by a `Lease`. -/
def poolRun (W : Nat) (s : ProxyPoolState) : List PoolCmd → ProxyPoolState × List Nat
  | [] => (s, [])
  | cmd :: rest =>
      let st := poolStep W s cmd
      let done := poolRun W st.1 rest
      (done.1, (match st.2 with | some p => [p] | none => []) ++ done.2)

/-- Pool invariant for one proxy `p`: the replacement source never supplies
`p`, and once `p` is evicted it is out of the rotation. -/
def PoolInv (p : Nat) (s : ProxyPoolState) : Prop :=
  p ∉ s.replacements ∧ (p ∈ s.evicted → p ∉ s.available)

/-! ## Backend: RateLimiter (spec §4.3) -/

/-- Modelled from the spec: the RateLimiter state for one strategy key — the
timestamps (seconds) of the requests admitted so far, newest first.  The spec
makes window-count mutation mutually exclusive, so concurrent `Acquire`
callers are embedded as an arbitrary serialized sequence of calls. -/
structure LimiterState where
  admits : List Nat
deriving DecidableEq

/-- Modelled from the spec: `RateLimiter.Acquire` at time `t` under a cap of
`N` requests per 60-second sliding window — the request is admitted exactly
when fewer than `N` already-admitted requests fall within the window ending
at `t` (an admit at time `u` is in the window when `t < u + 60`). -/
def acquire (N t : Nat) (s : LimiterState) : Bool × LimiterState :=
  if (s.admits.filter (fun u => decide (t < u + 60))).length < N then
    (true, { admits := t :: s.admits })
  else (false, s)

/-- Run a sequence of `Acquire` calls, given in time order. -/
def limiterRun (N : Nat) (s : LimiterState) : List Nat → LimiterState
  | [] => s
  | t :: ts => limiterRun N (acquire N t s).2 ts

/-- Number of admitted requests inside the 60-second window `(a, a + 60]`. -/
def windowCount (admits : List Nat) (a : Nat) : Nat :=
  (admits.filter (fun u => decide (a < u) && decide (u ≤ a + 60))).length

/-! ## Helper lemmas -/

theorem jsSortLe_iff {Row : Type} (v : Row → ℤ) (dir : SortDirection) (a b : Row) :
    jsSortLe v dir a b = true ↔ colOrdered v dir a b := by
  cases dir <;>
    simp only [jsSortLe, jsComparator, colOrdered, decide_eq_true_eq] <;>
    split_ifs with h1 h2 <;> constructor <;> intro <;> omega

theorem jsSortLe_trans {Row : Type} (v : Row → ℤ) (dir : SortDirection) :
    ∀ a b c : Row, jsSortLe v dir a b = true → jsSortLe v dir b c = true →
      jsSortLe v dir a c = true := by
  intro a b c hab hbc
  rw [jsSortLe_iff] at *
  cases dir <;> dsimp [colOrdered] at * <;> omega

theorem jsSortLe_total {Row : Type} (v : Row → ℤ) (dir : SortDirection) :
    ∀ a b : Row, (jsSortLe v dir a b || jsSortLe v dir b a) = true := by
  intro a b
  simp only [Bool.or_eq_true, jsSortLe_iff]
  cases dir <;> dsimp [colOrdered] <;> omega

theorem jsTrim_eq_nil_iff (s : List Char) :
    jsTrim s = [] ↔ ∀ c ∈ s, isJsSpace c = true := by
  unfold jsTrim
  rw [List.reverse_eq_nil_iff, List.dropWhile_eq_nil_iff]
  constructor
  · intro h c hc
    have hsplit : c ∈ s.takeWhile isJsSpace ++ s.dropWhile isJsSpace := by
      rw [List.takeWhile_append_dropWhile]; exact hc
    rcases List.mem_append.mp hsplit with hmem | hmem
    · exact List.mem_takeWhile_imp hmem
    · exact h c (List.mem_reverse.mpr hmem)
  · intro h c hc
    exact h c ((List.dropWhile_sublist isJsSpace).mem (List.mem_reverse.mp hc))

theorem foldl_add_eq_sum (f : DashUser → Int) :
    ∀ (l : List DashUser) (i : Int),
      l.foldl (fun s u => s + f u) i = i + (l.map f).sum := by
  intro l
  induction l with
  | nil => simp
  | cons u rest ih => intro i; simp [ih, add_assoc]

theorem followerSum_eq_sum (users : List DashUser) :
    followerSum users = (users.map (fun u => u.follower_count.getD 0)).sum := by
  simpa [followerSum] using foldl_add_eq_sum _ users 0

theorem jsRound_div_eq_intDiv (s : ℤ) (n : ℕ) (hn : 0 < n) :
    jsRound ((s : ℚ) / (n : ℚ)) = (2 * s + n) / (2 * (n : ℤ)) := by
  have hn' : ((n : ℚ)) ≠ 0 := Nat.cast_ne_zero.mpr hn.ne'
  have hq : (s : ℚ) / (n : ℚ) + 1 / 2 = ((2 * s + n : ℤ) : ℚ) / ((2 * n : ℕ) : ℚ) := by
    push_cast
    field_simp
    ring
  have hfloor := Rat.floor_intCast_div_natCast (2 * s + n) (2 * n)
  unfold jsRound
  rw [hq, hfloor]
  push_cast
  ring_nf

theorem fetchLoop_eq_take (raw : List Candidate) (n : Nat) :
    fetchLoop raw n = raw.take n := by
  induction raw generalizing n with
  | nil => cases n <;> rfl
  | cons c rest ih => cases n with
    | zero => rfl
    | succ m => simp [fetchLoop, ih]

/-! ## Claim theorems: frontend -/

/-- C8: when the `Table` component is given no `onSort` callback and a sort
column is selected, the rendered rows are a fresh copy of `data` ordered by
that column's values in the current direction, and the caller's `data` array
is returned unchanged; when `onSort` is provided or no column is selected,
the rows are exactly `data` in its original order. -/
theorem table_sortedData_spec {Row : Type} (data : List Row) (v : Row → ℤ)
    (dir : SortDirection) :
    (∀ (hs : Bool) (d : SortDirection), sortedData data none hs d = (data, data)) ∧
    (∀ (c : Option (Row → ℤ)) (d : SortDirection),
      sortedData data c true d = (data, data)) ∧
    (sortedData data (some v) false dir).2 = data ∧
    ((sortedData data (some v) false dir).1).Perm data ∧
    List.Pairwise (colOrdered v dir) (sortedData data (some v) false dir).1 := by
  refine ⟨fun hs d => rfl, fun c d => ?_, rfl, ?_, ?_⟩
  · cases c <;> rfl
  · simpa [sortedData] using List.mergeSort_perm data (jsSortLe v dir)
  · have hs := @List.sorted_mergeSort Row (jsSortLe v dir)
      (jsSortLe_trans v dir) (jsSortLe_total v dir) data
    exact List.Pairwise.imp (fun h => (jsSortLe_iff v dir _ _).mp h) hs

/-- C9: `handleScrapeUsers` submits a scrape request exactly when the entered
niche is non-empty after trimming: a niche consisting only of white space
yields no mutation call, and any other niche yields exactly one call carrying
the trimmed niche, the `min_followers` value and the `max_results` value. -/
theorem handleScrapeUsers_spec (niche : List Char) (mf mr : Int) :
    (handleScrapeUsers niche mf mr = none ↔ ∀ c ∈ niche, isJsSpace c = true) ∧
    (∀ r, handleScrapeUsers niche mf mr = some r →
      r.niche = jsTrim niche ∧ r.niche ≠ [] ∧
      r.min_follower_count = mf ∧ r.max_results = mr) := by
  constructor
  · rw [← jsTrim_eq_nil_iff]
    unfold handleScrapeUsers
    split_ifs with h <;> simp [h]
  · intro r hr
    unfold handleScrapeUsers at hr
    split_ifs at hr with h
    rw [Option.some_inj] at hr
    subst hr
    exact ⟨rfl, h, rfl, rfl⟩

/-- C9 witness: an all-white-space niche is rejected; `" hi "` is submitted
trimmed to `"hi"`. -/
theorem handleScrapeUsers_spec_witness :
    handleScrapeUsers [' ', '\t'] 1000 50 = none ∧
    ∀ r, handleScrapeUsers [' ', 'h', 'i', ' '] 1000 50 = some r →
      r.niche = ['h', 'i'] := by
  constructor
  · exact (handleScrapeUsers_spec [' ', '\t'] 1000 50).1.mpr (by decide)
  · intro r hr
    have h := ((handleScrapeUsers_spec [' ', 'h', 'i', ' '] 1000 50).2 r hr).1
    rw [h]
    decide

/-- C10: the average-followers statistic of `ScrapingDashboard` is computed
only in the branch guarded by `users.length > 0`, so its divisor is never
zero, and for every non-empty list it equals the rounded quotient of the
follower-count sum (missing counts contributing 0) by the list length. -/
theorem quickStats_avg_spec (users : List DashUser) (h : users ≠ []) :
    (∀ us : List DashUser, us.length = 0 → quickStats us = none) ∧
    ∃ st, quickStats users = some st ∧
      (users.length : ℚ) ≠ 0 ∧
      st.avgFollowers =
        jsRound ((((users.map (fun u => u.follower_count.getD 0)).sum : ℤ) : ℚ) /
          (users.length : ℚ)) ∧
      st.avgFollowers =
        (2 * followerSum users + users.length) / (2 * (users.length : ℤ)) ∧
      st.totalFollowers = (users.map (fun u => u.follower_count.getD 0)).sum := by
  have hlen : users.length ≠ 0 := by
    simpa [List.length_eq_zero] using h
  have hpos : 0 < users.length := Nat.pos_of_ne_zero hlen
  refine ⟨fun us h0 => by unfold quickStats; rw [if_pos h0], ?_⟩
  refine ⟨{ totalFollowers := followerSum users
            avgFollowers := jsRound ((followerSum users : ℚ) / (users.length : ℚ))
            verifiedCount := (users.filter (fun u => u.is_verified)).length },
    ?_, Nat.cast_ne_zero.mpr hlen, ?_, ?_, ?_⟩
  · unfold quickStats; rw [if_neg hlen]
  · dsimp only
    rw [followerSum_eq_sum]
  · exact jsRound_div_eq_intDiv (followerSum users) users.length hpos
  · exact followerSum_eq_sum users

/-- C10 witness: three users with follower counts 10, missing and 25 average
to `Math.round(35 / 3) = 12`. -/
theorem quickStats_avg_spec_witness :
    ([⟨"a", some 10, true⟩, ⟨"b", none, false⟩, ⟨"c", some 25, false⟩] :
        List DashUser) ≠ [] ∧
    ∃ st, quickStats [⟨"a", some 10, true⟩, ⟨"b", none, false⟩, ⟨"c", some 25, false⟩] =
        some st ∧ st.avgFollowers = 12 := by
  have hne : ([⟨"a", some 10, true⟩, ⟨"b", none, false⟩, ⟨"c", some 25, false⟩] :
      List DashUser) ≠ [] := by simp
  obtain ⟨-, st, hst, -, -, h4, -⟩ := quickStats_avg_spec _ hne
  refine ⟨hne, st, hst, ?_⟩
  rw [h4]
  decide

/-! ## Claim theorems: orchestration pipeline (spec-modelled) -/

/-- C6: `FetchCandidates` in either variant emits at most the requested
count, never exceeds the job-level `maxResults`, and emits an initial segment
of the platform's raw stream (it stops cleanly once the count is satisfied
rather than skipping or reordering). -/
theorem fetch_respects_count_and_max (raw : List Candidate) (count maxResults : Nat) :
    (fetchCandidates raw count maxResults).length ≤ count ∧
    (fetchCandidates raw count maxResults).length ≤ maxResults ∧
    fetchCandidates raw count maxResults <+: raw := by
  unfold fetchCandidates
  rw [fetchLoop_eq_take]
  refine ⟨?_, ?_, List.take_prefix _ _⟩
  · exact le_trans (List.length_take_le _ _) (min_le_left _ _)
  · exact le_trans (List.length_take_le _ _) (min_le_right _ _)

/-- C3: a job whose `maxResults` is strictly smaller than `targetCount` fails
with a `ConfigurationError` before any strategy is invoked (the invocation
trace is empty), and the error is the distinct configuration class, never one
of the retried/escalated strategy-error outcomes. -/
theorem config_error_fails_fast (now : Nat) (job : AcquisitionJob)
    (setup : StrategySetup) (s0 : Store) (h : job.maxResults < job.targetCount) :
    (StrategyOrchestrator.Run now job setup s0).result = .error .configurationError ∧
    (StrategyOrchestrator.Run now job setup s0).invocations = [] := by
  constructor <;> simp [StrategyOrchestrator.Run, h]

/-- C3 witness: a job with `maxResults = 5 < targetCount = 20` fails fast. -/
theorem config_error_fails_fast_witness :
    (StrategyOrchestrator.Run 0 ⟨"fitness", 5000, 20, 5, false, false, false⟩
        ⟨.failRecoverable, .failRecoverable⟩ Store.empty).result =
      .error .configurationError ∧
    (StrategyOrchestrator.Run 0 ⟨"fitness", 5000, 20, 5, false, false, false⟩
        ⟨.failRecoverable, .failRecoverable⟩ Store.empty).invocations = [] :=
  config_error_fails_fast 0 ⟨"fitness", 5000, 20, 5, false, false, false⟩
    ⟨.failRecoverable, .failRecoverable⟩ Store.empty (by decide)

/-! ## Store lemmas (C2) -/

theorem any_identity_iff (s : Store) (i : String) :
    (s.records.any (fun r => decide (r.identity = i)) = true) ↔ i ∈ identities s := by
  rw [List.any_eq_true]
  constructor
  · rintro ⟨r, hr, hd⟩
    rw [decide_eq_true_eq] at hd
    exact List.mem_map.mpr ⟨r, hr, hd⟩
  · intro h
    obtain ⟨r, hr, hd⟩ := List.mem_map.mp h
    exact ⟨r, hr, by rw [decide_eq_true_eq]; exact hd⟩

theorem upsert_of_mem (now : Nat) (c : Candidate) (s : Store)
    (hmem : c.identity ∈ identities s) :
    upsert now c s = (.updatedDuplicate, { s with records := s.records.map (applyDup c) }) := by
  have hany := (any_identity_iff s c.identity).mpr hmem
  simp [upsert, hany]

theorem upsert_of_not_mem (now : Nat) (c : Candidate) (s : Store)
    (hmem : c.identity ∉ identities s) :
    upsert now c s =
      (.inserted,
        { records := s.records ++
            [{ surrogateKey := s.nextKey
               identity := c.identity
               displayName := c.displayName
               followerCount := c.followerCount
               followingCount := c.followingCount
               isVerified := c.isVerified
               isPrivate := c.isPrivate
               profileImage := c.profileImage
               niche := c.niche
               firstSeen := now
               source := c.source }]
          nextKey := s.nextKey + 1 }) := by
  have hany : s.records.any (fun r => decide (r.identity = c.identity)) = false := by
    rw [← Bool.not_eq_true, any_identity_iff]
    exact hmem
  simp [upsert, hany]

theorem map_applyDup_eq {β : Type} (g : LeadRecord → β) (c : Candidate)
    (hg : ∀ r, g (applyDup c r) = g r) (l : List LeadRecord) :
    (l.map (applyDup c)).map g = l.map g := by
  rw [List.map_map]
  exact List.map_congr_left (fun r _ => hg r)

theorem length_filter_map_eq {α : Type} (f : α → α) (p : α → Bool)
    (h : ∀ x, p (f x) = p x) (l : List α) :
    ((l.map f).filter p).length = (l.filter p).length := by
  induction l with
  | nil => rfl
  | cons x xs ih =>
    simp only [List.map_cons, List.filter_cons, h x]
    cases p x <;> simp [ih]

theorem identities_upsert_dup (now : Nat) (c : Candidate) (s : Store)
    (hmem : c.identity ∈ identities s) :
    identities (upsert now c s).2 = identities s := by
  rw [upsert_of_mem now c s hmem]
  exact map_applyDup_eq LeadRecord.identity c
    (fun r => by by_cases h : r.identity = c.identity <;> simp [applyDup, h]) s.records

theorem identities_upsert_fresh (now : Nat) (c : Candidate) (s : Store)
    (hmem : c.identity ∉ identities s) :
    identities (upsert now c s).2 = identities s ++ [c.identity] := by
  rw [upsert_of_not_mem now c s hmem]
  simp [identities]

theorem reachable_nodup (s : Store) (hs : Reachable s) : (identities s).Nodup := by
  induction hs with
  | empty => simp [identities, Store.empty]
  | step now c hrec ih =>
    rename_i s'
    by_cases hmem : c.identity ∈ identities s'
    · rw [identities_upsert_dup now c s' hmem]
      exact ih
    · rw [identities_upsert_fresh now c s' hmem]
      simp [List.nodup_append, ih, hmem]

/-- C2: in every reachable store state at most one LeadRecord exists per
identity; upserting a candidate whose identity is present returns
`updated-duplicate`, updates only the mutable fields (follower count,
verification, privacy) and preserves `first_seen`, the surrogate key and all
other fields; upserting a fresh identity twice yields exactly one `inserted`
followed by one `updated-duplicate`, with exactly one record for that
identity in the store. -/
theorem store_identity_invariants (s : Store) (hs : Reachable s) :
    (identities s).Nodup ∧
    (∀ (now : Nat) (c : Candidate), c.identity ∈ identities s →
      (upsert now c s).1 = .updatedDuplicate ∧
      identities (upsert now c s).2 = identities s ∧
      (upsert now c s).2.records.map LeadRecord.surrogateKey =
        s.records.map LeadRecord.surrogateKey ∧
      (upsert now c s).2.records.map LeadRecord.firstSeen =
        s.records.map LeadRecord.firstSeen ∧
      (upsert now c s).2.records.map LeadRecord.displayName =
        s.records.map LeadRecord.displayName ∧
      (upsert now c s).2.nextKey = s.nextKey ∧
      (∀ r' ∈ (upsert now c s).2.records, r'.identity = c.identity →
        r'.followerCount = c.followerCount ∧ r'.isVerified = c.isVerified ∧
        r'.isPrivate = c.isPrivate)) ∧
    (∀ (n1 n2 : Nat) (c : Candidate), c.identity ∉ identities s →
      (upsert n1 c s).1 = .inserted ∧
      (upsert n2 c (upsert n1 c s).2).1 = .updatedDuplicate ∧
      ((upsert n2 c (upsert n1 c s).2).2.records.filter
        (fun r => decide (r.identity = c.identity))).length = 1) := by
  refine ⟨reachable_nodup s hs, ?_, ?_⟩
  · intro now c hmem
    have hup := upsert_of_mem now c s hmem
    refine ⟨by rw [hup], identities_upsert_dup now c s hmem, ?_, ?_, ?_, by rw [hup], ?_⟩
    · rw [hup]
      exact map_applyDup_eq LeadRecord.surrogateKey c
        (fun r => by by_cases h : r.identity = c.identity <;> simp [applyDup, h]) s.records
    · rw [hup]
      exact map_applyDup_eq LeadRecord.firstSeen c
        (fun r => by by_cases h : r.identity = c.identity <;> simp [applyDup, h]) s.records
    · rw [hup]
      exact map_applyDup_eq LeadRecord.displayName c
        (fun r => by by_cases h : r.identity = c.identity <;> simp [applyDup, h]) s.records
    · intro r' hr' hid
      rw [hup] at hr'
      obtain ⟨r, hr, rfl⟩ := List.mem_map.mp hr'
      by_cases h : r.identity = c.identity
      · simp [applyDup, h]
      · rw [show applyDup c r = r from by simp [applyDup, h]] at hid
        exact absurd hid h
  · intro n1 n2 c hmem
    have h1 := upsert_of_not_mem n1 c s hmem
    have hmem2 : c.identity ∈ identities (upsert n1 c s).2 := by
      rw [identities_upsert_fresh n1 c s hmem]
      simp
    have h2 := upsert_of_mem n2 c (upsert n1 c s).2 hmem2
    refine ⟨by rw [h1], by rw [h2], ?_⟩
    rw [h2]
    have hcount2 :
        (((upsert n1 c s).2.records.map (applyDup c)).filter
          (fun r => decide (r.identity = c.identity))).length =
        ((upsert n1 c s).2.records.filter
          (fun r => decide (r.identity = c.identity))).length := by
      refine length_filter_map_eq (applyDup c) _ (fun r => ?_) _
      by_cases h : r.identity = c.identity <;> simp [applyDup, h]
    rw [hcount2, h1]
    have hnone : s.records.filter (fun r => decide (r.identity = c.identity)) = [] := by
      rw [List.filter_eq_nil_iff]
      intro r hr
      simp only [decide_eq_true_eq]
      intro hid
      exact hmem (by simpa [identities, List.mem_map] using ⟨r, hr, hid⟩)
    simp [List.filter_append, hnone]

/-- C2 witness: from the empty store, upserting one candidate twice yields
`inserted` then `updated-duplicate` with exactly one stored record. -/
theorem store_identity_invariants_witness :
    (upsert 0 ⟨"alice", "Alice", 9000, 10, true, false, "pic", "fitness", 0,
        .managedService⟩ Store.empty).1 = .inserted ∧
    (upsert 1 ⟨"alice", "Alice", 9000, 10, true, false, "pic", "fitness", 0,
        .managedService⟩
      (upsert 0 ⟨"alice", "Alice", 9000, 10, true, false, "pic", "fitness", 0,
        .managedService⟩ Store.empty).2).1 = .updatedDuplicate ∧
    ((upsert 1 ⟨"alice", "Alice", 9000, 10, true, false, "pic", "fitness", 0,
        .managedService⟩
      (upsert 0 ⟨"alice", "Alice", 9000, 10, true, false, "pic", "fitness", 0,
        .managedService⟩ Store.empty).2).2.records.filter
      (fun r => decide (r.identity =
        (⟨"alice", "Alice", 9000, 10, true, false, "pic", "fitness", 0,
          .managedService⟩ : Candidate).identity))).length = 1 :=
  (store_identity_invariants Store.empty Reachable.empty).2.2 0 1
    ⟨"alice", "Alice", 9000, 10, true, false, "pic", "fitness", 0, .managedService⟩
    (by decide)

/-! ## Orchestrator lemmas (C1, C4) -/

theorem fetchLoop_nil (n : Nat) : fetchLoop [] n = [] := by
  cases n <;> rfl

theorem fetchCandidates_length_le_count (raw : List Candidate) (count maxR : Nat) :
    (fetchCandidates raw count maxR).length ≤ count := by
  unfold fetchCandidates
  rw [fetchLoop_eq_take]
  exact le_trans (List.length_take_le _ _) (min_le_left _ _)

theorem upsertAll_foldl_le (now : Nat) :
    ∀ (cs : List Candidate) (acc : Nat × Store),
      (cs.foldl
        (fun acc c =>
          let step := upsert now c acc.2
          (acc.1 + (if step.1 = .inserted then 1 else 0), step.2)) acc).1 ≤
      acc.1 + cs.length := by
  intro cs
  induction cs with
  | nil => intro acc; simp
  | cons c rest ih =>
    intro acc
    rw [List.foldl_cons]
    refine le_trans (ih _) ?_
    dsimp only
    split_ifs <;> simp [List.length_cons] <;> omega

theorem upsertAll_fst_le (now : Nat) (cs : List Candidate) (s : Store) :
    (upsertAll now cs s).1 ≤ cs.length := by
  simpa using upsertAll_foldl_le now cs (0, s)

theorem runStrategy_inv (job : AcquisitionJob) (now : Nat) (strat : SourceStrategy)
    (beh : StrategyBehavior) (st : LoopState) :
    (runStrategy job now strat beh st).insertedCount +
      (runStrategy job now strat beh st).deficit =
    st.insertedCount + st.deficit := by
  unfold runStrategy
  by_cases h : st.deficit = 0
  · rw [if_pos h]
  · rw [if_neg h]
    cases beh with
    | failRecoverable => rfl
    | failUnrecoverable => rfl
    | yields raw =>
      dsimp only
      have hle : (upsertAll now
          ((fetchCandidates raw st.deficit job.maxResults).filter (passesFilter job))
          st.store).1 ≤ st.deficit :=
        le_trans (upsertAll_fst_le now _ _)
          (le_trans (List.length_filter_le _ _)
            (fetchCandidates_length_le_count raw st.deficit job.maxResults))
      omega

theorem foldl_runStrategy_inv (job : AcquisitionJob) (now : Nat) (setup : StrategySetup) :
    ∀ (l : List SourceStrategy) (st : LoopState),
      ((l.foldl (fun st strat => runStrategy job now strat (behaviorFor setup strat) st)
        st).insertedCount +
       (l.foldl (fun st strat => runStrategy job now strat (behaviorFor setup strat) st)
        st).deficit) =
      st.insertedCount + st.deficit := by
  intro l
  induction l with
  | nil => intro st; rfl
  | cons strat rest ih =>
    intro st
    rw [List.foldl_cons]
    rw [ih (runStrategy job now strat (behaviorFor setup strat) st)]
    exact runStrategy_inv job now strat (behaviorFor setup strat) st

/-- C1: for every valid job, `Run` returns a result whose inserted count and
final deficit sum to `targetCount`, whose status is `success` exactly when
the final deficit is 0, is `partial` whenever the inserted count is strictly
between 0 and `targetCount`, and is `failed` only when zero candidates were
inserted and every strategy invocation failed unrecoverably. -/
theorem run_status_spec (now : Nat) (job : AcquisitionJob) (setup : StrategySetup)
    (s0 : Store) (hvalid : job.targetCount ≤ job.maxResults) :
    ∃ r, (StrategyOrchestrator.Run now job setup s0).result = .ok r ∧
      r.insertedCount + r.finalDeficit = job.targetCount ∧
      (r.status = .success ↔ r.finalDeficit = 0) ∧
      (0 < r.insertedCount → r.insertedCount < job.targetCount →
        r.status = .partialSuccess) ∧
      (r.status = .failed →
        r.insertedCount = 0 ∧ allUnrecoverable r.invocations = true) := by
  unfold StrategyOrchestrator.Run
  rw [if_neg (not_lt.mpr hvalid)]
  dsimp only
  refine ⟨_, rfl, ?_⟩
  set F := (strategyOrder job).foldl
    (fun st strat => runStrategy job now strat (behaviorFor setup strat) st)
    { deficit := job.targetCount, insertedCount := 0, strategiesUsed := []
      invocations := [], store := s0 } with hF
  have hinv : F.insertedCount + F.deficit = job.targetCount := by
    rw [hF, foldl_runStrategy_inv]
    simp
  dsimp only
  refine ⟨hinv, ?_, ?_, ?_⟩
  · unfold statusOf
    split_ifs with h1 h2 <;> simp [h1]
  · intro hpos hlt
    unfold statusOf
    split_ifs with h1 h2
    · omega
    · rw [Bool.and_eq_true, decide_eq_true_eq] at h2
      omega
    · rfl
  · unfold statusOf
    split_ifs with h1 h2
    · intro hco; cases hco
    · intro _
      rw [Bool.and_eq_true, decide_eq_true_eq] at h2
      exact h2
    · intro hco; cases hco

/-- C1 witness: a valid job (targetCount 20, maxResults 100) whose strategies
both fail unrecoverably satisfies every conjunct of the status rule. -/
theorem run_status_spec_witness :
    (20 : Nat) ≤ 100 ∧
    ∃ r, (StrategyOrchestrator.Run 0 ⟨"fitness", 5000, 20, 100, false, false, false⟩
        ⟨.failUnrecoverable, .failUnrecoverable⟩ Store.empty).result = .ok r ∧
      r.insertedCount + r.finalDeficit = 20 ∧
      (r.status = .success ↔ r.finalDeficit = 0) ∧
      (0 < r.insertedCount → r.insertedCount < 20 → r.status = .partialSuccess) ∧
      (r.status = .failed →
        r.insertedCount = 0 ∧ allUnrecoverable r.invocations = true) :=
  ⟨by decide,
   run_status_spec 0 ⟨"fitness", 5000, 20, 100, false, false, false⟩
     ⟨.failUnrecoverable, .failUnrecoverable⟩ Store.empty (by decide)⟩

/-- C4: when ManagedService returns 0 candidates and force-fallback-only is
off, BrowserAutomation is invoked exactly once before the (valid, non-trivial)
job concludes. -/
theorem fallback_invoked_once (now : Nat) (job : AcquisitionJob)
    (setup : StrategySetup) (s0 : Store)
    (hff : job.forceFallbackOnly = false)
    (hms : setup.ms = .yields [])
    (hvalid : job.targetCount ≤ job.maxResults)
    (htarget : 0 < job.targetCount) :
    ((StrategyOrchestrator.Run now job setup s0).invocations.filter
      (fun p => decide (p.1 = SourceStrategy.browserAutomation))).length = 1 := by
  unfold StrategyOrchestrator.Run
  rw [if_neg (not_lt.mpr hvalid)]
  dsimp only
  rw [strategyOrder, hff]
  rw [if_neg Bool.false_ne_true]
  rw [List.foldl_cons, List.foldl_cons, List.foldl_nil]
  have hne : job.targetCount ≠ 0 := htarget.ne'
  have hms1 : runStrategy job now .managedService (behaviorFor setup .managedService)
      { deficit := job.targetCount, insertedCount := 0, strategiesUsed := []
        invocations := [], store := s0 } =
      { deficit := job.targetCount, insertedCount := 0,
        strategiesUsed := [.managedService],
        invocations := [(.managedService, .ok 0 0)], store := s0 } := by
    rw [show behaviorFor setup .managedService = .yields [] from hms]
    unfold runStrategy
    rw [if_neg hne]
    dsimp only
    unfold fetchCandidates
    rw [fetchLoop_nil]
    rfl
  rw [hms1]
  cases hba : behaviorFor setup .browserAutomation with
  | yields raw =>
    unfold runStrategy
    rw [if_neg hne]
    rfl
  | failRecoverable =>
    unfold runStrategy
    rw [if_neg hne]
    rfl
  | failUnrecoverable =>
    unfold runStrategy
    rw [if_neg hne]
    rfl

/-- C4 witness: ManagedService yielding nothing forces exactly one
BrowserAutomation invocation. -/
theorem fallback_invoked_once_witness :
    ((StrategyOrchestrator.Run 0 ⟨"fitness", 5000, 20, 100, false, false, false⟩
        ⟨.yields [], .failRecoverable⟩ Store.empty).invocations.filter
      (fun p => decide (p.1 = SourceStrategy.browserAutomation))).length = 1 :=
  fallback_invoked_once 0 ⟨"fitness", 5000, 20, 100, false, false, false⟩
    ⟨.yields [], .failRecoverable⟩ Store.empty rfl rfl (by decide) (by decide)

/-! ## ProxyPool lemmas (C5) -/

theorem poolRelease_blocked_inv (W p q t : Nat) (s : ProxyPoolState)
    (h : PoolInv p s) : PoolInv p (poolRelease W q .blocked t s) := by
  obtain ⟨hrep, hav⟩ := h
  unfold poolRelease
  dsimp only
  by_cases hcnt : 2 ≤ recentBlocks (s.blockedLog ++ [(q, t)]) q t W
  · rw [if_pos hcnt]
    cases hr : s.replacements with
    | nil =>
      rw [hr] at hrep
      refine ⟨hrep, ?_⟩
      intro he
      rw [List.mem_filter]
      rintro ⟨hmem, hdec⟩
      rw [decide_eq_true_eq] at hdec
      rcases List.mem_append.mp he with he' | he'
      · exact hav he' hmem
      · rw [List.mem_singleton] at he'
        exact hdec he'
    | cons r qs =>
      rw [hr] at hrep
      simp only [List.mem_cons, not_or] at hrep
      refine ⟨hrep.2, ?_⟩
      intro he
      rw [List.mem_append]
      rintro (hmem | hmem)
      · rw [List.mem_filter] at hmem
        obtain ⟨hmem', hdec⟩ := hmem
        rw [decide_eq_true_eq] at hdec
        rcases List.mem_append.mp he with he' | he'
        · exact hav he' hmem'
        · rw [List.mem_singleton] at he'
          exact hdec he'
      · rw [List.mem_singleton] at hmem
        exact hrep.1 hmem
  · rw [if_neg hcnt]
    exact ⟨hrep, hav⟩

theorem poolStep_inv_state (W p : Nat) (s : ProxyPoolState) (cmd : PoolCmd)
    (h : PoolInv p s) : PoolInv p (poolStep W s cmd).1 := by
  obtain ⟨hrep, hav⟩ := h
  cases cmd with
  | lease =>
    cases havl : s.available with
    | nil =>
      simp only [poolStep, poolLease, havl]
      exact ⟨hrep, hav⟩
    | cons q rest =>
      simp only [poolStep, poolLease, havl]
      refine ⟨hrep, ?_⟩
      intro he
      have hq := hav he
      rw [havl] at hq
      simp only [List.mem_cons, not_or] at hq
      simp only [List.mem_append, List.mem_singleton, not_or]
      exact ⟨hq.2, hq.1⟩
  | release q outcome t =>
    cases outcome with
    | ok => exact ⟨hrep, hav⟩
    | failed => exact ⟨hrep, hav⟩
    | blocked => exact poolRelease_blocked_inv W p q t s ⟨hrep, hav⟩

theorem poolStep_evicted_mono (W p : Nat) (s : ProxyPoolState) (cmd : PoolCmd)
    (he : p ∈ s.evicted) : p ∈ (poolStep W s cmd).1.evicted := by
  cases cmd with
  | lease =>
    cases havl : s.available with
    | nil => simpa only [poolStep, poolLease, havl] using he
    | cons q rest => simpa only [poolStep, poolLease, havl] using he
  | release q outcome t =>
    cases outcome with
    | ok => exact he
    | failed => exact he
    | blocked =>
      show p ∈ (poolRelease W q .blocked t s).evicted
      unfold poolRelease
      dsimp only
      by_cases hcnt : 2 ≤ recentBlocks (s.blockedLog ++ [(q, t)]) q t W
      · rw [if_pos hcnt]
        cases s.replacements with
        | nil => exact List.mem_append_left _ he
        | cons r qs => exact List.mem_append_left _ he
      · rw [if_neg hcnt]
        exact he

theorem poolStep_out_ne (W p : Nat) (s : ProxyPoolState) (cmd : PoolCmd)
    (h : PoolInv p s) (he : p ∈ s.evicted) : (poolStep W s cmd).2 ≠ some p := by
  obtain ⟨hrep, hav⟩ := h
  cases cmd with
  | lease =>
    cases havl : s.available with
    | nil => simp [poolStep, poolLease, havl]
    | cons q rest =>
      simp only [poolStep, poolLease, havl]
      intro hcontra
      rw [Option.some_inj] at hcontra
      have hq := hav he
      rw [havl, hcontra] at hq
      exact hq (List.mem_cons_self p rest)
  | release q outcome t => simp [poolStep]

theorem poolRun_inv (W p : Nat) :
    ∀ (cmds : List PoolCmd) (s : ProxyPoolState), PoolInv p s →
      PoolInv p (poolRun W s cmds).1 ∧
      (p ∈ s.evicted → p ∈ (poolRun W s cmds).1.evicted) ∧
      (p ∈ s.evicted → p ∉ (poolRun W s cmds).2) := by
  intro cmds
  induction cmds with
  | nil =>
    intro s h
    exact ⟨h, fun he => he, fun _ => List.not_mem_nil p⟩
  | cons cmd rest ih =>
    intro s h
    have hstate := poolStep_inv_state W p s cmd h
    have hrest := ih (poolStep W s cmd).1 hstate
    simp only [poolRun]
    refine ⟨hrest.1, fun he => hrest.2.1 (poolStep_evicted_mono W p s cmd he), ?_⟩
    intro he
    rw [List.mem_append]
    rintro (hmem | hmem)
    · cases hout : (poolStep W s cmd).2 with
      | none => rw [hout] at hmem; exact List.not_mem_nil p hmem
      | some q =>
        rw [hout] at hmem
        rw [List.mem_singleton] at hmem
        exact poolStep_out_ne W p s cmd h he (by rw [hout, hmem])
    · exact hrest.2.2 (poolStep_evicted_mono W p s cmd he) hmem

theorem release_blocked_evicts (W p t : Nat) (s : ProxyPoolState) (hW : 0 < W)
    (hprev : 1 ≤ recentBlocks s.blockedLog p t W) :
    p ∈ (poolRelease W p .blocked t s).evicted := by
  have hcount : 2 ≤ recentBlocks (s.blockedLog ++ [(p, t)]) p t W := by
    unfold recentBlocks at hprev ⊢
    rw [List.filter_append, List.length_append]
    have hone : (([(p, t)] : List (Nat × Nat)).filter
        (fun e => decide (e.1 = p) && decide (t < e.2 + W))).length = 1 := by
      simp [hW]
    omega
  simp only [poolRelease]
  rw [if_pos hcount]
  cases s.replacements <;> simp

/-- C5: a proxy reported `blocked` for the second time within the rolling
window is evicted, and an evicted proxy is never again returned by any
subsequent `Lease` (its replacement, when the configured source supplies
one, is a different proxy). -/
theorem proxy_eviction_spec (W p : Nat) (s0 : ProxyPoolState)
    (pre post : List PoolCmd)
    (hW : 0 < W)
    (hrep : p ∉ s0.replacements)
    (hav : p ∈ s0.evicted → p ∉ s0.available) :
    (∀ (t : Nat) (s : ProxyPoolState), 1 ≤ recentBlocks s.blockedLog p t W →
      p ∈ (poolRelease W p .blocked t s).evicted) ∧
    (p ∈ (poolRun W s0 pre).1.evicted →
      p ∉ (poolRun W (poolRun W s0 pre).1 post).2) := by
  constructor
  · intro t s hprev
    exact release_blocked_evicts W p t s hW hprev
  · intro hev
    have hpre := poolRun_inv W p pre s0 ⟨hrep, hav⟩
    exact (poolRun_inv W p post (poolRun W s0 pre).1 hpre.1).2.2 hev

/-- C5 witness: proxy 1, blocked at times 10 and 20 inside a 60-second
window, is evicted and absent from three subsequent leases (the pool still
holding proxy 2 and the replacement 3). -/
theorem proxy_eviction_spec_witness :
    (0 : Nat) < 60 ∧
    1 ∈ (poolRun 60 ⟨[1, 2], [], [], [3]⟩
      [.release 1 .blocked 10, .release 1 .blocked 20]).1.evicted ∧
    1 ∉ (poolRun 60 (poolRun 60 ⟨[1, 2], [], [], [3]⟩
      [.release 1 .blocked 10, .release 1 .blocked 20]).1
      [.lease, .lease, .lease]).2 := by
  refine ⟨by decide, by decide, ?_⟩
  exact (proxy_eviction_spec 60 1 ⟨[1, 2], [], [], [3]⟩
    [.release 1 .blocked 10, .release 1 .blocked 20] [.lease, .lease, .lease]
    (by decide) (by decide) (by decide)).2 (by decide)

/-! ## RateLimiter lemmas (C7) -/

theorem length_filter_le_of_imp {α : Type} (p q : α → Bool) :
    ∀ l : List α, (∀ x ∈ l, p x = true → q x = true) →
      (l.filter p).length ≤ (l.filter q).length := by
  intro l
  induction l with
  | nil => intro _; simp
  | cons x xs ih =>
    intro h
    have hxs := ih (fun y hy => h y (List.mem_cons_of_mem x hy))
    by_cases hp : p x = true
    · have hq := h x (List.mem_cons_self x xs) hp
      simp only [List.filter_cons, hp, hq, if_true, List.length_cons]
      omega
    · have hp' : p x = false := by simpa using hp
      by_cases hq : q x = true
      · simp only [List.filter_cons, hp', hq, Bool.false_eq_true, if_false, if_true,
          List.length_cons]
        omega
      · have hq' : q x = false := by simpa using hq
        simp only [List.filter_cons, hp', hq', Bool.false_eq_true, if_false]
        exact hxs

theorem limiterRun_windowCount (N : Nat) :
    ∀ (ts : List Nat) (s : LimiterState),
      ts.Sorted (· ≤ ·) →
      (∀ u ∈ s.admits, ∀ t ∈ ts, u ≤ t) →
      (∀ a, windowCount s.admits a ≤ N) →
      ∀ a, windowCount (limiterRun N s ts).admits a ≤ N := by
  intro ts
  induction ts with
  | nil => intro s _ _ hw; exact hw
  | cons t ts ih =>
    intro s hsort hb hw
    have hsort' : ts.Sorted (· ≤ ·) := (List.sorted_cons.mp hsort).2
    have hts : ∀ t' ∈ ts, t ≤ t' := (List.sorted_cons.mp hsort).1
    simp only [limiterRun]
    apply ih (acquire N t s).2 hsort'
    · intro u hu t' ht'
      unfold acquire at hu
      split_ifs at hu with hcond
      · dsimp only at hu
        rcases List.mem_cons.mp hu with rfl | hu'
        · exact hts t' ht'
        · exact hb u hu' t' (List.mem_cons_of_mem t ht')
      · exact hb u hu t' (List.mem_cons_of_mem t ht')
    · intro a
      unfold acquire
      split_ifs with hcond
      · dsimp only
        unfold windowCount
        rw [List.filter_cons]
        by_cases hta : (decide (a < t) && decide (t ≤ a + 60)) = true
        · rw [if_pos hta, List.length_cons]
          rw [Bool.and_eq_true, decide_eq_true_eq, decide_eq_true_eq] at hta
          have hmono :
              (s.admits.filter (fun u => decide (a < u) && decide (u ≤ a + 60))).length ≤
              (s.admits.filter (fun u => decide (t < u + 60))).length := by
            refine length_filter_le_of_imp _ _ s.admits (fun u hu hpu => ?_)
            rw [Bool.and_eq_true, decide_eq_true_eq, decide_eq_true_eq] at hpu
            rw [decide_eq_true_eq]
            omega
          omega
        · rw [if_neg hta]
          exact hw a
      · exact hw a

/-- C7: a RateLimiter capped at `N` requests per 60-second window for one
strategy key never admits more than `N` requests within any 60-second sliding
window, whatever (serialized) sequence of `Acquire` calls — in particular
`3N` calls from concurrent jobs sharing the key — is issued. -/
theorem rate_limiter_window_bound (N : Nat) (ts : List Nat)
    (hsort : ts.Sorted (· ≤ ·)) (a : Nat) :
    windowCount (limiterRun N ⟨[]⟩ ts).admits a ≤ N := by
  refine limiterRun_windowCount N ts ⟨[]⟩ hsort ?_ ?_ a
  · intro u hu
    exact absurd hu (List.not_mem_nil u)
  · intro a'
    simp [windowCount]

/-- C7 witness: six simultaneous calls (3N for N = 2) at time 1 admit at most
2 within the window `(0, 60]`. -/
theorem rate_limiter_window_bound_witness :
    ([1, 1, 1, 1, 1, 1] : List Nat).Sorted (· ≤ ·) ∧
    windowCount (limiterRun 2 ⟨[]⟩ [1, 1, 1, 1, 1, 1]).admits 0 ≤ 2 :=
  ⟨by decide, rate_limiter_window_bound 2 [1, 1, 1, 1, 1, 1] (by decide) 0⟩

end LeadGen
